import Mathlib

/-!
Verification of the `shyt` interactive shell (`src/shyt/sh.py`).

Python strings are embedded as lists of characters (`Str`), Python ints as
`Int`.  Each definition mirrors one function or method of the source file;
stateful methods become explicit state-passing functions.
-/

namespace Shyt

/-- Embedding of a Python `str`: a sequence of code points. -/
abbrev Str := List Char

/-- Embedding of `class History` (sh.py lines 5-34): fields `circular`,
`_index`, `_buffer`. -/
structure History where
  circular : Bool
  index : Int
  buffer : List Str
deriving DecidableEq

/-- `History.__init__`: `_index = 0`, `_buffer = []`. -/
def History.new (circular : Bool) : History :=
  { circular := circular, index := 0, buffer := [] }

/-- `History._get`: returns `_buffer[_index]` when `0 <= _index < len(_buffer)`,
otherwise the empty string. -/
def History.get (h : History) : Str :=
  if h.index < (h.buffer.length : Int) ∧ 0 ≤ h.index then
    h.buffer.getD h.index.toNat []
  else []

/-- `History.next`: wraps to 0 when circular and at the sentinel position,
else increments while below the end; returns `_get()` of the new state. -/
def History.next (h : History) : History × Str :=
  let h' :=
    if h.circular = true ∧ h.index = (h.buffer.length : Int) then
      { h with index := 0 }
    else if h.index < (h.buffer.length : Int) then
      { h with index := h.index + 1 }
    else h
  (h', h'.get)

/-- `History.prev`: wraps to `len(_buffer)` when circular and at 0, else
decrements while above 0; returns `_get()` of the new state. -/
def History.prev (h : History) : History × Str :=
  let h' :=
    if h.circular = true ∧ h.index = 0 then
      { h with index := (h.buffer.length : Int) }
    else if 0 < h.index then
      { h with index := h.index - 1 }
    else h
  (h', h'.get)

/-- `History.push`: appends when the string is non-empty and differs from the
last stored entry, then sets `_index = len(_buffer)` (the new length). -/
def History.push (h : History) (s : Str) : History :=
  if s ≠ [] ∧ (h.buffer = [] ∨ h.buffer.getLastD [] ≠ s) then
    { h with buffer := h.buffer ++ [s], index := (h.buffer.length : Int) + 1 }
  else h

/-- An abstract History operation, for quantifying over call sequences. -/
inductive HOp where
  | push (s : Str)
  | prev
  | next
deriving DecidableEq

/-- Apply one operation, keeping only the state. -/
def applyOp (h : History) : HOp → History
  | .push s => h.push s
  | .prev => h.prev.1
  | .next => h.next.1

/-- Apply a sequence of operations from left to right. -/
def applyOps (h : History) (ops : List HOp) : History :=
  ops.foldl applyOp h

/-- The cursor invariant: `0 <= _index <= len(_buffer)`. -/
def History.inRange (h : History) : Prop :=
  0 ≤ h.index ∧ h.index ≤ (h.buffer.length : Int)

lemma applyOp_inRange (h : History) (op : HOp) (hh : h.inRange) :
    (applyOp h op).inRange := by
  obtain ⟨h0, h1⟩ := hh
  cases op with
  | push s =>
      simp only [applyOp, History.push]
      split
      · refine ⟨?_, ?_⟩ <;> dsimp only <;>
          first
            | omega
            | (simp only [List.length_append, List.length_cons,
                List.length_nil]; push_cast; omega)
      · exact ⟨h0, h1⟩
  | prev =>
      simp only [applyOp, History.prev]
      split
      · refine ⟨?_, ?_⟩ <;> dsimp only <;> omega
      · split
        · refine ⟨?_, ?_⟩ <;> dsimp only <;> omega
        · exact ⟨h0, h1⟩
  | next =>
      simp only [applyOp, History.next]
      split
      · refine ⟨?_, ?_⟩ <;> dsimp only <;> omega
      · split
        · refine ⟨?_, ?_⟩ <;> dsimp only <;> omega
        · exact ⟨h0, h1⟩

lemma applyOps_inRange (ops : List HOp) :
    ∀ h : History, h.inRange → (applyOps h ops).inRange := by
  induction ops with
  | nil => intro h hh; exact hh
  | cons op ops ih =>
      intro h hh
      exact ih (applyOp h op) (applyOp_inRange h op hh)

/-- Claim C1: starting from a freshly constructed History (circular or not),
after any sequence of push/prev/next operations the recall cursor stays in
the closed range `[0, len(entries)]`. -/
theorem cursor_in_range (circ : Bool) (ops : List HOp) :
    (applyOps (History.new circ) ops).inRange := by
  apply applyOps_inRange
  exact ⟨le_refl 0, by simp [History.new]⟩

/-- Claim C4: `push` appends unless the line is empty or equals the most
recently stored entry (then nothing changes), and on a successful append the
cursor is reset to the new `len(entries)`; `push "a"` twice yields `["a"]`. -/
theorem push_spec (h : History) (s : Str) :
    (s = [] → h.push s = h) ∧
    (h.buffer ≠ [] → h.buffer.getLastD [] = s → h.push s = h) ∧
    (s ≠ [] → (h.buffer = [] ∨ h.buffer.getLastD [] ≠ s) →
      (h.push s).buffer = h.buffer ++ [s] ∧
      (h.push s).index = ((h.push s).buffer.length : Int)) ∧
    (((History.new false).push ['a']).push ['a']).buffer = [['a']] := by
  refine ⟨?_, ?_, ?_, by decide⟩
  · intro hs
    have hcnd : ¬ (s ≠ [] ∧ (h.buffer = [] ∨ h.buffer.getLastD [] ≠ s)) := by
      rintro ⟨hne, -⟩; exact hne hs
    simp only [History.push, if_neg hcnd]
  · intro hb hl
    have hcnd : ¬ (s ≠ [] ∧ (h.buffer = [] ∨ h.buffer.getLastD [] ≠ s)) := by
      rintro ⟨-, hc | hc⟩
      · exact hb hc
      · exact hc hl
    simp only [History.push, if_neg hcnd]
  · intro hs hc
    have hcnd : s ≠ [] ∧ (h.buffer = [] ∨ h.buffer.getLastD [] ≠ s) := ⟨hs, hc⟩
    have hpush : h.push s =
        { h with buffer := h.buffer ++ [s],
                 index := (h.buffer.length : Int) + 1 } := by
      simp only [History.push, if_pos hcnd]
    rw [hpush]
    refine ⟨rfl, ?_⟩
    try dsimp only
    simp only [List.length_append, List.length_cons, List.length_nil]
    push_cast
    ring

/-- Concrete instantiation of `push_spec`, discharging each hypothesis. -/
theorem push_spec_witness :
    (History.new false).push [] = History.new false ∧
    (⟨false, 1, [['a']]⟩ : History).push ['a'] = ⟨false, 1, [['a']]⟩ ∧
    ((History.new false).push ['b']).buffer = [] ++ [['b']] ∧
    (((History.new false).push ['a']).push ['a']).buffer = [['a']] :=
  ⟨(push_spec (History.new false) []).1 rfl,
   (push_spec ⟨false, 1, [['a']]⟩ ['a']).2.1 (by decide) rfl,
   ((push_spec (History.new false) ['b']).2.2.1 (by decide) (Or.inl rfl)).1,
   (push_spec (History.new false) ['a']).2.2.2⟩

/-- Iterated `prev`, keeping only the state. -/
def iterPrev (h : History) : Nat → History
  | 0 => h
  | n + 1 => iterPrev h.prev.1 n

lemma prev_fields (h : History) :
    h.prev.1.circular = h.circular ∧ h.prev.1.buffer = h.buffer := by
  simp only [History.prev]
  split
  · exact ⟨rfl, rfl⟩
  · split <;> exact ⟨rfl, rfl⟩

lemma get_zero (h : History) (h0 : h.index = 0) :
    h.get = h.buffer.headD [] := by
  simp only [History.get, h0]
  cases h.buffer with
  | nil => simp
  | cons a l => simp

lemma prev_at_zero (h : History) (hc : h.circular = false) (h0 : h.index = 0) :
    h.prev = (h, h.buffer.headD []) := by
  have hcond : ¬ (h.circular = true ∧ h.index = 0) := by
    rintro ⟨hh, -⟩; rw [hc] at hh; exact Bool.false_ne_true hh
  have hpos : ¬ (0 : Int) < h.index := by omega
  simp only [History.prev, if_neg hcond, if_neg hpos]
  exact Prod.ext rfl (get_zero h h0)

lemma iterPrev_reaches_zero (n : Nat) :
    ∀ h : History, h.circular = false → 0 ≤ h.index → h.index ≤ (n : Int) →
      (iterPrev h n).index = 0 ∧ (iterPrev h n).circular = false ∧
      (iterPrev h n).buffer = h.buffer := by
  induction n with
  | zero =>
      intro h hc h0 h1
      refine ⟨?_, hc, rfl⟩
      simp only [iterPrev]
      omega
  | succ n ih =>
      intro h hc h0 h1
      have hcond : ¬ (h.circular = true ∧ h.index = 0) := by
        rintro ⟨hh, -⟩; rw [hc] at hh; exact Bool.false_ne_true hh
      have hstep : h.prev.1.circular = false := (prev_fields h).1 ▸ hc
      have hbuf : h.prev.1.buffer = h.buffer := (prev_fields h).2
      have hidx : 0 ≤ h.prev.1.index ∧ h.prev.1.index ≤ (n : Int) := by
        simp only [History.prev, if_neg hcond]
        split <;> refine ⟨?_, ?_⟩ <;> dsimp only <;> push_cast at h1 ⊢ <;> omega
      have := ih h.prev.1 hstep hidx.1 hidx.2
      exact ⟨this.1, this.2.1, hbuf ▸ this.2.2⟩

/-- Claim C5: for a non-circular History with cursor at a valid position,
iterating `prev` at least `cursor` many times lands at cursor 0 with the
entries unchanged, and every further `prev` call leaves the state fixed and
returns the oldest entry (empty string when there are no entries): the cursor
never wraps back to the fresh position. -/
theorem prev_clamps (h : History) (n : Nat) (hc : h.circular = false)
    (h0 : 0 ≤ h.index) (hn : h.index ≤ (n : Int)) :
    (iterPrev h n).index = 0 ∧ (iterPrev h n).buffer = h.buffer ∧
    (iterPrev h n).prev.1 = iterPrev h n ∧
    (iterPrev h n).prev.2 = h.buffer.headD [] := by
  obtain ⟨hz, hcf, hb⟩ := iterPrev_reaches_zero n h hc h0 hn
  have := prev_at_zero (iterPrev h n) hcf hz
  refine ⟨hz, hb, ?_, ?_⟩
  · rw [this]
  · rw [this, hb]

/-- Concrete instantiation of `prev_clamps`: two entries, cursor at 2. -/
theorem prev_clamps_witness :
    (iterPrev ⟨false, 2, [['a'], ['b']]⟩ 3).index = 0 ∧
    (iterPrev ⟨false, 2, [['a'], ['b']]⟩ 3).buffer = [['a'], ['b']] ∧
    (iterPrev ⟨false, 2, [['a'], ['b']]⟩ 3).prev.1 =
      iterPrev ⟨false, 2, [['a'], ['b']]⟩ 3 ∧
    (iterPrev ⟨false, 2, [['a'], ['b']]⟩ 3).prev.2 = ['a'] :=
  prev_clamps ⟨false, 2, [['a'], ['b']]⟩ 3 rfl (by decide) (by decide)

lemma get_in (h : History) (h0 : 0 ≤ h.index)
    (hlt : h.index < (h.buffer.length : Int)) :
    h.get = h.buffer.getD h.index.toNat [] := by
  simp only [History.get]
  rw [if_pos ⟨hlt, h0⟩]

lemma get_out (h : History) (hge : (h.buffer.length : Int) ≤ h.index) :
    h.get = [] := by
  simp only [History.get]
  rw [if_neg]
  rintro ⟨hlt, -⟩
  omega

lemma getD_length_sub_one (l : List Str) (hl : l ≠ []) :
    l.getD (l.length - 1) [] = l.getLastD [] := by
  induction l with
  | nil => exact absurd rfl hl
  | cons a l ih =>
      cases l with
      | nil => rfl
      | cons b m =>
          have := ih (by simp)
          simpa [List.getD] using this

/-- Claim C6: for a circular History with at least one entry, `prev` from the
fresh position (`cursor == len(entries)`) returns the newest entry, and `prev`
from the oldest entry (`cursor == 0`) wraps the cursor to `len(entries)` and
returns the empty string. -/
theorem prev_circular (h : History) (hc : h.circular = true)
    (hb : h.buffer ≠ []) :
    (h.index = (h.buffer.length : Int) →
      h.prev.2 = h.buffer.getLastD [] ∧
      h.prev.1.index = (h.buffer.length : Int) - 1) ∧
    (h.index = 0 →
      h.prev.1.index = (h.buffer.length : Int) ∧ h.prev.2 = []) := by
  have hlen : 0 < h.buffer.length := List.length_pos.mpr hb
  constructor
  · intro hfresh
    have hcond : ¬ (h.circular = true ∧ h.index = 0) := by
      rintro ⟨-, hz⟩; rw [hfresh] at hz; omega
    have hpos : 0 < h.index := by omega
    simp only [History.prev, if_neg hcond, if_pos hpos]
    refine ⟨?_, by omega⟩
    rw [get_in _ (by (try dsimp only); omega) (by (try dsimp only); omega)]
    try dsimp only
    have htn : (h.index - 1).toNat = h.buffer.length - 1 := by
      rw [hfresh]; omega
    rw [htn]
    exact getD_length_sub_one h.buffer hb
  · intro hz
    have hcnd : h.circular = true ∧ h.index = 0 := ⟨hc, hz⟩
    simp only [History.prev, if_pos hcnd]
    exact ⟨by trivial, get_out _ (le_refl _)⟩

/-- Concrete instantiation of `prev_circular` at both cursor positions. -/
theorem prev_circular_witness :
    ((⟨true, 1, [['a']]⟩ : History).prev.2 = [['a']].getLastD [] ∧
      (⟨true, 1, [['a']]⟩ : History).prev.1.index = (1 : Int) - 1) ∧
    ((⟨true, 0, [['a']]⟩ : History).prev.1.index = 1 ∧
      (⟨true, 0, [['a']]⟩ : History).prev.2 = []) :=
  ⟨(prev_circular ⟨true, 1, [['a']]⟩ rfl (by decide)).1 rfl,
   (prev_circular ⟨true, 0, [['a']]⟩ rfl (by decide)).2 rfl⟩

/-- The Python exceptions that the embedded code can raise. -/
inductive PyErr where
  | nameError
  | indexError
  | valueError
  | unicodeDecodeError
deriving DecidableEq

instance exceptDecEq {ε α : Type} [DecidableEq ε] [DecidableEq α] :
    DecidableEq (Except ε α) := fun x y =>
  match x, y with
  | .ok a, .ok b =>
      if h : a = b then .isTrue (by rw [h])
      else .isFalse (fun hh => h (Except.ok.inj hh))
  | .error a, .error b =>
      if h : a = b then .isTrue (by rw [h])
      else .isFalse (fun hh => h (Except.error.inj hh))
  | .ok _, .error _ => .isFalse Except.noConfusion
  | .error _, .ok _ => .isFalse Except.noConfusion

/-- An ASCII byte, which UTF-8-decodes to itself. -/
abbrev Ascii (b : Nat) : Prop := b < 0x80

/-- A UTF-8 continuation byte (`10xxxxxx`). -/
abbrev ContByte (b : Nat) : Prop := 0x80 ≤ b ∧ b < 0xC0

/-- A valid lead byte of a 2-byte UTF-8 sequence (0xC0/0xC1 would be
overlong and are rejected by Python's strict decoder). -/
abbrev Lead2 (b : Nat) : Prop := 0xC2 ≤ b ∧ b ≤ 0xDF

/-- A lead byte of a 3-byte UTF-8 sequence. -/
abbrev Lead3 (b : Nat) : Prop := 0xE0 ≤ b ∧ b ≤ 0xEF

/-- Code point of a 2-byte UTF-8 sequence. -/
def cp2 (a b : Nat) : Nat := (a - 0xC0) * 0x40 + (b - 0x80)

/-- Code point of a 3-byte UTF-8 sequence. -/
def cp3 (a b c : Nat) : Nat :=
  (a - 0xE0) * 0x1000 + (b - 0x80) * 0x40 + (c - 0x80)

/-- A 3-byte code point acceptable to Python's strict decoder: not overlong
and not a surrogate. -/
abbrev Valid3 (cp : Nat) : Prop := 0x800 ≤ cp ∧ ¬ (0xD800 ≤ cp ∧ cp ≤ 0xDFFF)

/-- Strict UTF-8 decoding of the bytes returned by `os.read(fd, 3)` in
`_get_unix_key` into a list of code points, as performed by
`bytes.decode()`.  `os.read(fd, 3)` returns at most three bytes, so the four
byte counts 0-3 are enumerated; anything that is not a sequence of complete
valid UTF-8 encodings (stray continuation byte, overlong form, surrogate,
truncated sequence, or a 4-byte lead, which cannot complete within three
bytes) raises UnicodeDecodeError, modelled as `none`. -/
def utf8Decode : List Nat → Option (List Nat)
  | [] => some []
  | [a] => if Ascii a then some [a] else none
  | [a, b] =>
    if Ascii a ∧ Ascii b then some [a, b]
    else if Lead2 a ∧ ContByte b then some [cp2 a b]
    else none
  | [a, b, c] =>
    if Ascii a ∧ Ascii b ∧ Ascii c then some [a, b, c]
    else if Ascii a ∧ Lead2 b ∧ ContByte c then some [a, cp2 b c]
    else if Lead2 a ∧ ContByte b ∧ Ascii c then some [cp2 a b, c]
    else if Lead3 a ∧ ContByte b ∧ ContByte c ∧ Valid3 (cp3 a b c) then
      some [cp3 a b c]
    else none
  | _ :: _ :: _ :: _ :: _ => none

/-- Embedding of `_get_unix_key` (sh.py lines 57-66) applied to the raw bytes
returned by `os.read(fd, 3)`: UTF-8-decode them, then dispatch on the number
of decoded characters; with 3 characters the codes 65 and 66 of the last
character are negated, with 1 character its code is returned literally, and
otherwise the last character is returned (IndexError on an empty read). -/
def getUnixKey (bs : List Nat) : Except PyErr Int :=
  match utf8Decode bs with
  | none => .error .unicodeDecodeError
  | some ks =>
    if ks.length = 3 then
      let c := ks.getLastD 0
      .ok (if c = 65 ∨ c = 66 then -(c : Int) else (c : Int))
    else if ks.length = 1 then
      .ok ((ks.headD 0 : Nat) : Int)
    else
      match ks.getLast? with
      | some c => .ok ((c : Nat) : Int)
      | none => .error .indexError

lemma utf8Decode_ascii3 (a b c : Nat) (ha : Ascii a) (hb : Ascii b)
    (hc : Ascii c) : utf8Decode [a, b, c] = some [a, b, c] := by
  rw [utf8Decode, if_pos ⟨ha, hb, hc⟩]

/-- Claim C7 as amended: ESC `[` A decodes to Up (-65), ESC `[` B to Down
(-66), a lone byte 0x41 to the literal 65, and any other all-ASCII 3-byte
sequence whose last byte is neither 65 nor 66 decodes to the literal value of
its last byte. -/
theorem decoder_amended :
    getUnixKey [0x1B, 0x5B, 0x41] = .ok (-65) ∧
    getUnixKey [0x1B, 0x5B, 0x42] = .ok (-66) ∧
    getUnixKey [0x41] = .ok 65 ∧
    ∀ a b c : Nat, a < 0x80 → b < 0x80 → c < 0x80 → c ≠ 65 → c ≠ 66 →
      getUnixKey [a, b, c] = .ok (c : Int) := by
  refine ⟨by decide, by decide, by decide, ?_⟩
  intro a b c ha hb hc h65 h66
  have hd : utf8Decode [a, b, c] = some [a, b, c] := utf8Decode_ascii3 a b c ha hb hc
  have hlast : ([a, b, c] : List Nat).getLastD 0 = c := rfl
  have hnot : ¬ (([a, b, c] : List Nat).getLastD 0 = 65 ∨
      ([a, b, c] : List Nat).getLastD 0 = 66) := by
    rw [hlast]
    rintro (h | h)
    · exact h65 h
    · exact h66 h
  simp only [getUnixKey, hd, List.length_cons, List.length_nil]
  rw [if_pos trivial, if_neg hnot, hlast]

/-- Concrete instantiation of `decoder_amended` on the bytes of "abc". -/
theorem decoder_amended_witness :
    getUnixKey [0x61, 0x62, 0x63] = .ok ((0x63 : Nat) : Int) :=
  decoder_amended.2.2.2 0x61 0x62 0x63 (by decide) (by decide) (by decide)
    (by decide) (by decide)

/-- Counterexample to Claim C7 as stated: the 3-byte sequence
`[65, 65, 65]` ("AAA") is not ESC `[` A, yet the decoder returns the Up code
-65 instead of the literal value 65 of its last byte, because only the third
byte is inspected. -/
theorem decoder_counterexample :
    getUnixKey [65, 65, 65] = .ok (-65) ∧ getUnixKey [65, 65, 65] ≠ .ok 65 := by
  constructor
  · decide
  · decide

/-- The characters `str.split()` with no argument splits on: exactly those
with `str.isspace()` true (CPython's Py_UNICODE_ISSPACE): tab through
carriage return 0x09-0x0D, the file/group/record/unit separators 0x1C-0x1F,
space 0x20, next line 0x85, no-break space 0xA0, Ogham space mark 0x1680,
the Unicode spaces 0x2000-0x200A, line separator 0x2028, paragraph separator
0x2029, narrow no-break space 0x202F, medium mathematical space 0x205F and
ideographic space 0x3000. -/
def pyIsSpace (c : Char) : Bool :=
  decide ((0x09 ≤ c.toNat ∧ c.toNat ≤ 0x0D) ∨
    (0x1C ≤ c.toNat ∧ c.toNat ≤ 0x20) ∨
    c.toNat = 0x85 ∨ c.toNat = 0xA0 ∨ c.toNat = 0x1680 ∨
    (0x2000 ≤ c.toNat ∧ c.toNat ≤ 0x200A) ∨ c.toNat = 0x2028 ∨
    c.toNat = 0x2029 ∨ c.toNat = 0x202F ∨ c.toNat = 0x205F ∨
    c.toNat = 0x3000)

/-- Accumulator-based splitter behind `pySplit`. -/
def splitWsAux : List Char → List Char → List Str
  | [], acc => if acc = [] then [] else [acc.reverse]
  | c :: cs, acc =>
    if pyIsSpace c then
      if acc = [] then splitWsAux cs [] else acc.reverse :: splitWsAux cs []
    else splitWsAux cs (c :: acc)

/-- Python `cmdstr.split()`: tokens separated by runs of whitespace, with no
empty tokens (so an all-whitespace string yields the empty list). -/
def pySplit (s : Str) : List Str := splitWsAux s []

/-- A handler from the `self.cmds` table: takes the argument list and returns
a status code, or raises (`Except.error` carries the rendered exception). -/
abbrev Handler := List Str → Except Str Int

/-- Rendering of `traceback.format_exc()` for a caught handler exception; the
exact text is standard-library behaviour, unconstrained by the claims. -/
def tracebackOf (e : Str) : Str := e

/-- Embedding of `Shell._exec` (sh.py lines 76-88): split the submitted line
on whitespace, take the first token as the command name — an IndexError when
there is no token — then either report `command not found`, or run the
handler and catch anything it raises, reporting it.  The `ok` result carries
the diagnostic lines `_exec` itself writes (each followed by a newline). -/
def execModel (cmds : Str → Option Handler) (cmdstr : Str) :
    Except PyErr (List Str) :=
  match pySplit cmdstr with
  | [] => .error .indexError
  | cmdName :: args =>
    match cmds cmdName with
    | none => .ok [cmdName ++ (": command not found").data]
    | some cmd =>
      match cmd args with
      | .ok _ => .ok []
      | .error e => .ok [tracebackOf e]

lemma execModel_ok (cmds : Str → Option Handler) (s : Str) (nm : Str)
    (args : List Str) (hsplit : pySplit s = nm :: args) :
    ∃ out, execModel cmds s = .ok out := by
  simp only [execModel, hsplit]
  cases hc : cmds nm with
  | none => exact ⟨_, rfl⟩
  | some cmd =>
      dsimp only
      cases he : cmd args with
      | ok v => exact ⟨[], rfl⟩
      | error e => exact ⟨_, rfl⟩

/-- Claim C3 evaluated against the code: handler exceptions and unknown
commands are indeed contained at the dispatch boundary (whenever the line has
at least one token, `_exec` returns normally, whatever the handler does), but
a non-empty line of nothing but Python whitespace — " ", a no-break space
0xA0, a group separator 0x1D — splits to no tokens, so `acmd[0]` raises an
uncaught IndexError, which terminates the session, contradicting the claim
that only stream-I/O and terminal-mode failures may do so. -/
theorem exec_containment :
    (∀ cmds : Str → Option Handler,
      execModel cmds [' '] = .error .indexError ∧
      execModel cmds [Char.ofNat 0xA0] = .error .indexError ∧
      execModel cmds [Char.ofNat 0x1D] = .error .indexError) ∧
    (∀ (cmds : Str → Option Handler) (s : Str) (nm : Str) (args : List Str),
      pySplit s = nm :: args → ∃ out, execModel cmds s = .ok out) := by
  constructor
  · intro cmds
    exact ⟨rfl, rfl, rfl⟩
  · intro cmds s nm args hsplit
    exact execModel_ok cmds s nm args hsplit

/-- Concrete instantiation of `exec_containment` with an empty command table:
the lines " " and "\xa0" crash, the line "ls" is contained. -/
theorem exec_containment_witness :
    execModel (fun _ => none) [' '] = .error .indexError ∧
    execModel (fun _ => none) [Char.ofNat 0xA0] = .error .indexError ∧
    ∃ out, execModel (fun _ => none) ['l', 's'] = .ok out :=
  ⟨(exec_containment.1 (fun _ => none)).1,
   (exec_containment.1 (fun _ => none)).2.1,
   exec_containment.2 (fun _ => none) ['l', 's'] ['l', 's'] [] rfl⟩

/-- One terminal row: its character cells and the cursor column.  `_write`
overwrites cell by cell from the column; carriage return moves the cursor to
column 0; writing a newline scrolls to a fresh row. -/
structure Term where
  line : List Char
  col : Nat
deriving DecidableEq

/-- Write one character at the cursor: overwrite the cell (or extend the row
at its end) and advance the cursor. -/
def Term.putc (t : Term) (c : Char) : Term :=
  if t.col < t.line.length then ⟨t.line.set t.col c, t.col + 1⟩
  else ⟨t.line ++ [c], t.col + 1⟩

/-- `_write(msg)`: write the characters of `msg` in order. -/
def Term.write (t : Term) (cs : Str) : Term := cs.foldl Term.putc t

/-- `_clear_buf(l)` (sh.py lines 51-54): carriage return, `l` spaces,
carriage return. -/
def Term.clearBuf (t : Term) (l : Nat) : Term :=
  let t1 := Term.write { t with col := 0 } (List.replicate l ' ')
  { t1 with col := 0 }

/-- The row after `_write` of a newline: output scrolls, leaving a fresh
empty row. -/
def newRow : Term := ⟨[], 0⟩

/-- State of the `Shell.start` loop (sh.py lines 90-139): the edit buffer
`buf`, the local variable `pbuf` (`none` while it has never been assigned),
the history, the current terminal row, and — recorded for specification
purposes — the lines passed to `self._exec` so far. -/
structure LoopState where
  buf : Str
  pbuf : Option Str
  hist : History
  term : Term
  dispatched : List Str
deriving DecidableEq

/-- One iteration of the `while True` loop of `Shell.start` on one decoded
key.  `Except.error` models an exception propagating out of the loop, ending
the session (the `finally` clause then restores the terminal mode).  In the
Down branch the source evaluates `self.history.next()` before the `pbuf`
test, but on NameError the session ends, so the discarded history update is
unobservable.  On Enter the source pushes into history before `_exec`; when
`_exec` raises, that update is likewise discarded with the session.  The
diagnostic lines `_exec` writes each end in a newline, so after them the row
is fresh and the prompt is rewritten on it. -/
def step (cmds : Str → Option Handler) (prompt : Str) (s : LoopState)
    (key : Int) : Except PyErr LoopState :=
  if key = -65 then
    let p := s.hist.prev
    if p.2 = [] ∧ s.buf = [] then
      .ok { s with hist := p.1, pbuf := some p.2 }
    else
      .ok { s with
        hist := p.1
        pbuf := some p.2
        buf := p.2
        term := ((s.term.clearBuf (s.buf.length + prompt.length)).write
          prompt).write p.2 }
  else if key = -66 then
    let q := s.hist.next
    match s.pbuf with
    | none => .error .nameError
    | some pb =>
      if pb = [] ∧ s.buf = [] then
        .ok { s with hist := q.1 }
      else
        .ok { s with
          hist := q.1
          buf := q.2
          term := ((s.term.clearBuf (s.buf.length + prompt.length)).write
            prompt).write q.2 }
  else if key = 9 then
    .ok { s with term := s.term.write ['t', 'a', 'b'] }
  else if key = 10 then
    if s.buf ≠ [] then
      match execModel cmds s.buf with
      | .error e => .error e
      | .ok _ =>
        .ok { s with
          hist := s.hist.push s.buf
          dispatched := s.dispatched ++ [s.buf]
          buf := []
          term := newRow.write prompt }
    else
      .ok { s with term := newRow.write prompt }
  else if key = 67 ∨ key = 68 then
    .ok s
  else if key = 127 then
    if s.buf ≠ [] then
      .ok { s with
        buf := s.buf.dropLast
        term := ((s.term.clearBuf (s.buf.length + prompt.length)).write
          prompt).write s.buf.dropLast }
    else .ok s
  else if 0 ≤ key ∧ key ≤ 0x10FFFF then
    .ok { s with
      buf := s.buf ++ [Char.ofNat key.toNat]
      term := s.term.write [Char.ofNat key.toNat] }
  else .error .valueError

/-- The state at the top of `Shell.start`, right after the prompt is
written. -/
def initState (prompt : Str) (hist : History) : LoopState :=
  { buf := []
    pbuf := none
    hist := hist
    term := newRow.write prompt
    dispatched := [] }

/-- Run the loop over a list of decoded keys. -/
def runKeys (cmds : Str → Option Handler) (prompt : Str) :
    LoopState → List Int → Except PyErr LoopState
  | s, [] => .ok s
  | s, k :: ks =>
    match step cmds prompt s k with
    | .ok s1 => runKeys cmds prompt s1 ks
    | .error e => .error e

/-- An empty command table, for concrete runs. -/
def noCmds : Str → Option Handler := fun _ => none

lemma step_pbuf (cmds : Str → Option Handler) (prompt : Str) (s : LoopState)
    (k : Int) (s1 : LoopState) (hk : k ≠ -65)
    (h : step cmds prompt s k = .ok s1) : s1.pbuf = s.pbuf := by
  simp only [step, if_neg hk] at h
  repeat' split at h
  all_goals first
    | exact Except.noConfusion h
    | (injection h with h; subst h; rfl)

lemma runKeys_pbuf_none (cmds : Str → Option Handler) (prompt : Str) :
    ∀ (ks : List Int) (s s1 : LoopState), (-65 : Int) ∉ ks →
      runKeys cmds prompt s ks = .ok s1 → s1.pbuf = s.pbuf := by
  intro ks
  induction ks with
  | nil =>
      intro s s1 _ h
      simp only [runKeys] at h
      injection h with h
      subst h
      rfl
  | cons k ks ih =>
      intro s s1 hmem h
      have hk : k ≠ -65 := fun hh => hmem (hh ▸ List.mem_cons_self k ks)
      have hks : (-65 : Int) ∉ ks := fun hh => hmem (List.mem_cons_of_mem k hh)
      simp only [runKeys] at h
      cases hstep : step cmds prompt s k with
      | error e => rw [hstep] at h; exact Except.noConfusion h
      | ok s2 =>
          rw [hstep] at h
          exact (ih s2 s1 hks h).trans (step_pbuf cmds prompt s k s2 hk hstep)

lemma runKeys_append (cmds : Str → Option Handler) (prompt : Str)
    (as bs : List Int) :
    ∀ s, runKeys cmds prompt s (as ++ bs) =
      match runKeys cmds prompt s as with
      | .ok t => runKeys cmds prompt t bs
      | .error e => .error e := by
  induction as with
  | nil => intro s; rfl
  | cons a as ih =>
      intro s
      simp only [List.cons_append, runKeys]
      cases step cmds prompt s a with
      | ok t => exact ih t
      | error e => rfl

/-- Claim C10: in a session where a Down key (decoded -66) arrives before any
Up key (-65) has been processed, the Down handler reads the local `pbuf`
before it was ever assigned, so the loop raises an unhandled NameError and
terminates instead of treating Down as a no-op or recall. -/
theorem down_before_up (cmds : Str → Option Handler) (prompt : Str)
    (hist : History) (pre rest : List Int) (s : LoopState)
    (hpre : runKeys cmds prompt (initState prompt hist) pre = .ok s)
    (hup : (-65 : Int) ∉ pre) :
    runKeys cmds prompt (initState prompt hist) (pre ++ (-66) :: rest) =
      .error .nameError := by
  have hpb : s.pbuf = none := by
    have := runKeys_pbuf_none cmds prompt pre (initState prompt hist) s hup hpre
    rw [this]
    rfl
  have hstep : step cmds prompt s (-66) = .error .nameError := by
    simp only [step, if_neg (by decide : ¬ ((-66 : Int) = -65)),
      if_pos (rfl : (-66 : Int) = -66), hpb]
    rw [if_pos trivial]
  rw [runKeys_append, hpre]
  simp only [runKeys, hstep]

/-- Concrete instantiation of `down_before_up`: typing 'h' and then pressing
Down kills the session with NameError. -/
theorem down_before_up_witness :
    runKeys noCmds ['>', ' '] (initState ['>', ' '] (History.new false))
      ([104] ++ (-66) :: []) = .error .nameError :=
  down_before_up noCmds ['>', ' '] (History.new false) [104] []
    ⟨['h'], none, History.new false, ⟨['>', ' ', 'h'], 3⟩, []⟩ rfl (by decide)

/-- Claim C2 evaluated at a failing input: with an initially empty circular
History and the key sequence Up, 'x', Enter, Down, the final Down finds
`history.next() = "x"` and an empty buffer, so by the claim it must replace
the buffer with "x"; but the code's no-op test reads the stale empty `pbuf`
left by the initial Up, so it leaves the buffer empty (while the history
cursor has already moved to 0). -/
theorem down_uses_stale_pbuf :
    (runKeys noCmds ['>', ' '] (initState ['>', ' '] (History.new true))
        [-65, 120, 10, -66]).map (fun s => (s.buf, s.hist.index)) =
      .ok ([], 0) ∧
    (runKeys noCmds ['>', ' '] (initState ['>', ' '] (History.new true))
        [-65, 120, 10]).map (fun s => s.hist.next.2) = .ok [Char.ofNat 120] := by
  constructor
  · rfl
  · rfl

lemma step_enter (cmds : Str → Option Handler) (prompt : Str) (s : LoopState) :
    step cmds prompt s 10 =
      if s.buf ≠ [] then
        match execModel cmds s.buf with
        | .error e => .error e
        | .ok _ =>
          .ok { s with
            hist := s.hist.push s.buf
            dispatched := s.dispatched ++ [s.buf]
            buf := []
            term := newRow.write prompt }
      else .ok { s with term := newRow.write prompt } := rfl

/-- Claim C8 evaluated against the code: Enter with an empty buffer echoes a
newline and redraws the prompt, leaving history, buffer and the dispatch
record unchanged; Enter with a buffer that splits into at least one token
pushes the buffer into History, dispatches it, and clears it; but Enter with
a non-empty buffer of nothing but Python whitespace — " ", or a no-break
space 0xA0 — raises IndexError inside `_exec`, so the session dies and the
buffer is never cleared. -/
theorem enter_behavior :
    (∀ (cmds : Str → Option Handler) (prompt : Str) (s : LoopState),
      s.buf = [] →
      step cmds prompt s 10 = .ok { s with term := newRow.write prompt }) ∧
    (∀ (cmds : Str → Option Handler) (prompt : Str) (s : LoopState)
        (nm : Str) (args : List Str), pySplit s.buf = nm :: args →
      ∃ s1, step cmds prompt s 10 = .ok s1 ∧
        s1.hist = s.hist.push s.buf ∧
        s1.dispatched = s.dispatched ++ [s.buf] ∧ s1.buf = []) ∧
    step noCmds ['>', ' '] ⟨[' '], none, History.new false, newRow, []⟩ 10 =
      .error .indexError ∧
    step noCmds ['>', ' ']
      ⟨[Char.ofNat 0xA0], none, History.new false, newRow, []⟩ 10 =
      .error .indexError := by
  refine ⟨?_, ?_, rfl, rfl⟩
  · intro cmds prompt s hbuf
    rw [step_enter, if_neg (fun hh => hh hbuf)]
  · intro cmds prompt s nm args hsplit
    have hb : s.buf ≠ [] := by
      intro hh
      rw [hh] at hsplit
      have hnil : ([] : List Str) = nm :: args := hsplit
      exact List.noConfusion hnil
    obtain ⟨out, hout⟩ := execModel_ok cmds s.buf nm args hsplit
    rw [step_enter, if_pos hb, hout]
    exact ⟨_, rfl, rfl, rfl, rfl⟩

/-- Concrete instantiation of `enter_behavior`: Enter on an empty buffer, and
Enter on the buffer "ls". -/
theorem enter_behavior_witness :
    step noCmds ['>', ' '] (initState ['>', ' '] (History.new false)) 10 =
      .ok { initState ['>', ' '] (History.new false) with
            term := newRow.write ['>', ' '] } ∧
    ∃ s1, step noCmds ['>', ' ']
        (LoopState.mk ['l', 's'] none (History.new false) newRow []) 10 =
        .ok s1 ∧
      s1.hist = (LoopState.mk ['l', 's'] none (History.new false)
        newRow []).hist.push
        (LoopState.mk ['l', 's'] none (History.new false) newRow []).buf ∧
      s1.dispatched = (LoopState.mk ['l', 's'] none (History.new false)
        newRow []).dispatched ++
        [(LoopState.mk ['l', 's'] none (History.new false) newRow []).buf] ∧
      s1.buf = [] :=
  ⟨enter_behavior.1 noCmds ['>', ' '] (initState ['>', ' '] (History.new false))
      rfl,
   enter_behavior.2.1 noCmds ['>', ' ']
      (LoopState.mk ['l', 's'] none (History.new false) newRow [])
      ['l', 's'] [] rfl⟩

lemma set_at_length (A : List Char) (b : Char) (B : List Char) (c : Char) :
    (A ++ b :: B).set A.length c = A ++ c :: B := by
  induction A with
  | nil => rfl
  | cons a A ih =>
      show a :: (A ++ b :: B).set A.length c = a :: (A ++ c :: B)
      rw [ih]

lemma drop_replicate (n m : Nat) :
    (List.replicate m ' ').drop n = List.replicate (m - n) ' ' := by
  induction n generalizing m with
  | zero => simp
  | succ n ih =>
      cases m with
      | zero => simp
      | succ m =>
          rw [List.replicate_succ]
          simp only [List.drop_succ_cons, Nat.succ_sub_succ_eq_sub]
          exact ih m

lemma drop_at_length (A B : List Char) : (A ++ B).drop A.length = B := by
  induction A with
  | nil => rfl
  | cons a A ih =>
      simp only [List.cons_append, List.length_cons, List.drop_succ_cons]
      exact ih

lemma write_split (cs : Str) :
    ∀ (t : Term) (A B : List Char), t.line = A ++ B → t.col = A.length →
      t.write cs = ⟨A ++ cs ++ B.drop cs.length, A.length + cs.length⟩ := by
  induction cs with
  | nil =>
      intro t A B hA hc
      simp only [Term.write, List.foldl_nil, List.length_nil, List.drop_zero,
        List.append_nil, Nat.add_zero]
      cases t with
      | mk line col =>
          simp only [Term.mk.injEq]
          exact ⟨hA, hc⟩
  | cons c cs ih =>
      intro t A B hA hc
      have hputc : t.putc c = ⟨(A ++ [c]) ++ B.drop 1, (A ++ [c]).length⟩ := by
        cases B with
        | nil =>
            have hnl : ¬ t.col < t.line.length := by
              rw [hA, hc]
              simp
            simp only [Term.putc, if_neg hnl]
            rw [hA, hc]
            simp
        | cons b B1 =>
            have hlt : t.col < t.line.length := by
              rw [hA, hc]
              simp
            simp only [Term.putc, if_pos hlt]
            rw [hA, hc, set_at_length]
            simp
      have hw : Term.write t (c :: cs) = Term.write (t.putc c) cs := rfl
      rw [hw, ih (t.putc c) (A ++ [c]) (B.drop 1) (by rw [hputc])
        (by rw [hputc])]
      simp only [Term.mk.injEq]
      constructor
      · rw [List.drop_drop, Nat.add_comm 1 cs.length]
        simp [List.append_assoc]
      · simp only [List.length_append, List.length_cons, List.length_nil]
        omega

lemma newRow_write (p : Str) : newRow.write p = ⟨p, p.length⟩ := by
  have h := write_split p newRow [] [] rfl rfl
  simpa using h

lemma clearBuf_eval (t : Term) (l : Nat) :
    t.clearBuf l = ⟨List.replicate l ' ' ++ t.line.drop l, 0⟩ := by
  have h := write_split (List.replicate l ' ') { t with col := 0 } [] t.line
    rfl rfl
  simp only [Term.clearBuf, h, List.nil_append, List.length_replicate]

/-- The visible-line invariant of Claim C9: the terminal row holds
`prompt ++ buf` followed only by blanks left over by the
overwrite-with-spaces redraw, and the cursor sits right after
`prompt ++ buf`. -/
def Inv (prompt : Str) (s : LoopState) : Prop :=
  ∃ n, s.term.line = prompt ++ s.buf ++ List.replicate n ' ' ∧
    s.term.col = prompt.length + s.buf.length

lemma inv_redraw (prompt nb : Str) (s : LoopState) (n : Nat)
    (hline : s.term.line = prompt ++ s.buf ++ List.replicate n ' ') :
    ∃ m, ((s.term.clearBuf (s.buf.length + prompt.length)).write prompt).write
        nb =
      ⟨prompt ++ nb ++ List.replicate m ' ', prompt.length + nb.length⟩ := by
  refine ⟨s.buf.length + n - nb.length, ?_⟩
  have h1 : s.term.clearBuf (s.buf.length + prompt.length) =
      ⟨List.replicate (s.buf.length + prompt.length + n) ' ', 0⟩ := by
    rw [clearBuf_eval, hline]
    have hll : s.buf.length + prompt.length = (prompt ++ s.buf).length := by
      rw [List.length_append]
      omega
    rw [hll, drop_at_length, ← List.replicate_add]
  have h2 : (s.term.clearBuf (s.buf.length + prompt.length)).write prompt =
      ⟨prompt ++ List.replicate (s.buf.length + n) ' ', prompt.length⟩ := by
    have h := write_split prompt (s.term.clearBuf (s.buf.length + prompt.length))
      [] (List.replicate (s.buf.length + prompt.length + n) ' ')
      (by rw [h1]; rfl) (by rw [h1]; rfl)
    rw [h, drop_replicate]
    have harith : s.buf.length + prompt.length + n - prompt.length =
        s.buf.length + n := by omega
    rw [harith]
    simp
  have h3 := write_split nb
    ((s.term.clearBuf (s.buf.length + prompt.length)).write prompt)
    prompt (List.replicate (s.buf.length + n) ' ') (by rw [h2]) (by rw [h2])
  rw [h3, drop_replicate]

lemma inv_putc (prompt : Str) (s : LoopState) (c : Char) (n : Nat)
    (hline : s.term.line = prompt ++ s.buf ++ List.replicate n ' ')
    (hcol : s.term.col = prompt.length + s.buf.length) :
    ∃ m, s.term.write [c] =
      ⟨prompt ++ (s.buf ++ [c]) ++ List.replicate m ' ',
       prompt.length + (s.buf ++ [c]).length⟩ := by
  refine ⟨n - 1, ?_⟩
  have h := write_split [c] s.term (prompt ++ s.buf) (List.replicate n ' ')
    hline (by rw [hcol, List.length_append])
  rw [h]
  simp only [Term.mk.injEq]
  constructor
  · rw [show ([c] : Str).length = 1 from rfl, drop_replicate]
    simp [List.append_assoc]
  · simp only [List.length_append, List.length_cons, List.length_nil]
    omega

lemma step_inv (cmds : Str → Option Handler) (prompt : Str) (s : LoopState)
    (k : Int) (s1 : LoopState) (hk : k ≠ 9) (hinv : Inv prompt s)
    (h : step cmds prompt s k = .ok s1) : Inv prompt s1 := by
  obtain ⟨n, hline, hcol⟩ := hinv
  simp only [step] at h
  repeat' split at h
  all_goals first
    | exact Except.noConfusion h
    | exact absurd (by assumption : k = 9) hk
    | (injection h with h; subst h; exact ⟨n, hline, hcol⟩)
    | (injection h with h; subst h;
       obtain ⟨m, hm⟩ := inv_redraw prompt s.hist.prev.2 s n hline;
       exact ⟨m, by rw [hm], by rw [hm]⟩)
    | (injection h with h; subst h;
       obtain ⟨m, hm⟩ := inv_redraw prompt s.hist.next.2 s n hline;
       exact ⟨m, by rw [hm], by rw [hm]⟩)
    | (injection h with h; subst h;
       obtain ⟨m, hm⟩ := inv_redraw prompt s.buf.dropLast s n hline;
       exact ⟨m, by rw [hm], by rw [hm]⟩)
    | (injection h with h; subst h;
       refine ⟨0, ?_, ?_⟩ <;> rw [newRow_write] <;> simp_all)
    | (injection h with h; subst h;
       obtain ⟨m, hm⟩ := inv_putc prompt s (Char.ofNat k.toNat) n hline hcol;
       exact ⟨m, by rw [hm], by rw [hm]⟩)

lemma runKeys_inv (cmds : Str → Option Handler) (prompt : Str) :
    ∀ (ks : List Int) (s s1 : LoopState), (9 : Int) ∉ ks → Inv prompt s →
      runKeys cmds prompt s ks = .ok s1 → Inv prompt s1 := by
  intro ks
  induction ks with
  | nil =>
      intro s s1 _ hinv h
      simp only [runKeys] at h
      injection h with h
      subst h
      exact hinv
  | cons k ks ih =>
      intro s s1 hmem hinv h
      have hk : k ≠ 9 := fun hh => hmem (hh ▸ List.mem_cons_self k ks)
      have hks : (9 : Int) ∉ ks := fun hh => hmem (List.mem_cons_of_mem k hh)
      simp only [runKeys] at h
      cases hstep : step cmds prompt s k with
      | error e => rw [hstep] at h; exact Except.noConfusion h
      | ok s2 =>
          rw [hstep] at h
          exact ih s2 s1 hks (step_inv cmds prompt s k s2 hk hinv hstep) h

/-- Claim C9 as amended: after every key event other than Tab, the terminal
row equals `prompt ++ buffer` (padded on the right with blanks from the
overwrite-with-spaces redraw) with the cursor right after it; the Tab handler
writes the literal text "tab" without touching the buffer and so breaks this
invariant. -/
theorem visible_line (cmds : Str → Option Handler) (prompt : Str)
    (hist : History) (ks : List Int) (s1 : LoopState) (hk : (9 : Int) ∉ ks)
    (h : runKeys cmds prompt (initState prompt hist) ks = .ok s1) :
    Inv prompt s1 := by
  apply runKeys_inv cmds prompt ks (initState prompt hist) s1 hk _ h
  refine ⟨0, ?_, ?_⟩
  · simp [initState, newRow_write]
  · simp [initState, newRow_write]

/-- Concrete instantiation of `visible_line`: after typing 'h' the row is
"> h". -/
theorem visible_line_witness :
    Inv ['>', ' ']
      ⟨['h'], none, History.new false, ⟨['>', ' ', 'h'], 3⟩, []⟩ :=
  visible_line noCmds ['>', ' '] (History.new false) [104]
    ⟨['h'], none, History.new false, ⟨['>', ' ', 'h'], 3⟩, []⟩
    (by decide) rfl

/-- Counterexample to Claim C9 as stated: pressing Tab in the fresh state
writes "tab" onto the row without touching the buffer, so the row reads
"> tab" while `prompt ++ buffer` is "> ". -/
theorem tab_breaks_invariant :
    runKeys noCmds ['>', ' '] (initState ['>', ' '] (History.new false)) [9] =
      .ok ⟨[], none, History.new false, ⟨['>', ' ', 't', 'a', 'b'], 5⟩, []⟩ ∧
    ¬ Inv ['>', ' ']
      ⟨[], none, History.new false, ⟨['>', ' ', 't', 'a', 'b'], 5⟩, []⟩ := by
  constructor
  · rfl
  · intro hcontra
    obtain ⟨n, hlineEq, -⟩ := hcontra
    have hl : (['>', ' ', 't', 'a', 'b'] : List Char) =
        ['>', ' '] ++ [] ++ List.replicate n ' ' := hlineEq
    have hlen := congrArg List.length hl
    simp only [List.length_cons, List.length_nil, List.length_append,
      List.length_replicate] at hlen
    have hn : n = 3 := by omega
    subst hn
    exact absurd hl (by decide)

end Shyt
